import Mathlib

/-!
Shallow embedding of the maze library (`src/lib.rs`): a flat wall array with
closed-form index arithmetic, a row-major cell iterator, the binary-tree and
sidewinder generation algorithms with injected randomness, and the text
renderer.  Machine integers (`u32`, `usize`) are modelled as `Nat`; the mazes
manipulated by the library always have dimensions at least 1, so no wrapping
arithmetic is reachable in the modelled operations.  Fallible operations
(`Result<(), ()>` in the source) are modelled with `Except Unit Unit`;
a construction that panics is modelled as `none`.
-/

namespace MazeModel

/-- `enum Wall { Open, Closed }` from the source. -/
inductive Wall where
  | Open : Wall
  | Closed : Wall
deriving DecidableEq, Repr

/-- `pub struct Maze { height: u32, width: u32, walls: Vec<Wall> }`. -/
structure Maze where
  height : Nat
  width : Nat
  walls : List Wall
deriving DecidableEq, Repr

/-- `struct MazeCell { x: u32, y: u32 }`. -/
structure MazeCell where
  x : Nat
  y : Nat
deriving DecidableEq, Repr

/-- `struct MazeIterator { current_x, current_y, max_x, max_y }`. -/
structure MazeIterator where
  current_x : Nat
  current_y : Nat
  max_x : Nat
  max_y : Nat
deriving DecidableEq, Repr

/-- `Maze::new(width, height)`: all-closed wall array of
`(width-1)*height + (height-1)*width` walls.  The source documents
"Panics if height or width are < 1" (the `u32` subtraction `width - 1`
overflows); the panic is modelled as `none`. -/
def Maze.new (width height : Nat) : Option Maze :=
  if width = 0 ∨ height = 0 then none
  else
    let num_vertical_segments := (width - 1) * height
    let num_horizontal_segments := (height - 1) * width
    let total_walls := num_vertical_segments + num_horizontal_segments
    some (Maze.mk height width (List.replicate total_walls Wall.Closed))

/-- `Maze::north_wall_index_for_cell`: `None` for the top row of cells,
otherwise `Some(x + y * width)`. -/
def Maze.north_wall_index_for_cell (m : Maze) (x y : Nat) : Option Nat :=
  if m.height - 1 ≤ y then none
  else some (x + y * m.width)

/-- `Maze::east_wall_index_for_cell`: `None` for the right-most column of
cells, otherwise `Some((height-1)*width + (y + x * height))` (vertical
segments are stored after all of the horizontal segments). -/
def Maze.east_wall_index_for_cell (m : Maze) (x y : Nat) : Option Nat :=
  if m.width - 1 ≤ x then none
  else
    let num_horizontal_segments := (m.height - 1) * m.width
    some (num_horizontal_segments + (y + x * m.height))

/-- `Maze::south_wall_index_for_cell`: `None` at the bottom row, otherwise
delegates to the north wall of the cell one step down. -/
def Maze.south_wall_index_for_cell (m : Maze) (x y : Nat) : Option Nat :=
  match x, y with
  | _, 0 => none
  | x, Nat.succ y => m.north_wall_index_for_cell x y

/-- `Maze::west_wall_index_for_cell`: `None` at the left column, otherwise
delegates to the east wall of the cell one step left. -/
def Maze.west_wall_index_for_cell (m : Maze) (x y : Nat) : Option Nat :=
  match x, y with
  | 0, _ => none
  | Nat.succ x, y => m.east_wall_index_for_cell x y

/-- `Maze::open_north_wall`: sets the slot to `Open` and returns `Ok`, or
returns `Err` (leaving the maze untouched) when the cell is in the top row. -/
def Maze.open_north_wall (m : Maze) (cell : MazeCell) : Maze × Except Unit Unit :=
  match m.north_wall_index_for_cell cell.x cell.y with
  | some index => (Maze.mk m.height m.width (m.walls.set index Wall.Open), Except.ok ())
  | none => (m, Except.error ())

/-- `Maze::open_east_wall`: sets the slot to `Open` and returns `Ok`, or
returns `Err` (leaving the maze untouched) when the cell is in the
right-most column. -/
def Maze.open_east_wall (m : Maze) (cell : MazeCell) : Maze × Except Unit Unit :=
  match m.east_wall_index_for_cell cell.x cell.y with
  | some index => (Maze.mk m.height m.width (m.walls.set index Wall.Open), Except.ok ())
  | none => (m, Except.error ())

/-- `MazeIterator::new`. -/
def MazeIterator.new (maze : Maze) : MazeIterator :=
  MazeIterator.mk 0 0 (maze.width - 1) (maze.height - 1)

/-- One step of `impl Iterator for MazeIterator`. -/
def MazeIterator.next (it : MazeIterator) : Option (MazeCell × MazeIterator) :=
  if it.max_y < it.current_y then none
  else if it.current_x < it.max_x then
    some (MazeCell.mk it.current_x it.current_y,
      MazeIterator.mk (it.current_x + 1) it.current_y it.max_x it.max_y)
  else
    some (MazeCell.mk it.current_x it.current_y,
      MazeIterator.mk 0 (it.current_y + 1) it.max_x it.max_y)

/-- The full (finite) cell sequence produced by repeatedly calling
`MazeIterator::next` until it yields `None`. -/
def iterRun (it : MazeIterator) : List MazeCell :=
  if it.max_y < it.current_y then []
  else if it.current_x < it.max_x then
    MazeCell.mk it.current_x it.current_y ::
      iterRun (MazeIterator.mk (it.current_x + 1) it.current_y it.max_x it.max_y)
  else
    MazeCell.mk it.current_x it.current_y ::
      iterRun (MazeIterator.mk 0 (it.current_y + 1) it.max_x it.max_y)
termination_by (it.max_y + 1 - it.current_y, it.max_x - it.current_x)
decreasing_by
  · apply Prod.Lex.right'
    · omega
    · omega
  · apply Prod.Lex.left
    omega

/-- `iterRun` really is the unfolding of `MazeIterator.next`. -/
theorem iterRun_eq_next_unfold (it : MazeIterator) :
    iterRun it = match it.next with
      | none => []
      | some (c, it') => c :: iterRun it' := by
  rw [iterRun, MazeIterator.next]
  by_cases h1 : it.max_y < it.current_y
  · simp [h1]
  · by_cases h2 : it.current_x < it.max_x <;> simp [h1, h2]

/-- The cells of a `width × height` grid, x fastest, y slowest — the order in
which `MazeIterator` emits them. -/
def rowMajor (w h : Nat) : List MazeCell :=
  (List.range h).flatMap (fun y => (List.range w).map (fun x => MazeCell.mk x y))

/-- One loop iteration of `Maze::binary_tree_with_rand_fn`: on `true` try to
open north, falling back to east; on `false` try east, falling back to north. -/
def btOpen (m : Maze) (b : Bool) (cell : MazeCell) : Maze :=
  if b then
    match m.open_north_wall cell with
    | (m1, Except.ok _) => m1
    | (m1, Except.error _) => (m1.open_east_wall cell).1
  else
    match m.open_east_wall cell with
    | (m1, Except.ok _) => m1
    | (m1, Except.error _) => (m1.open_north_wall cell).1

/-- Fold step for binary-tree generation; the `Nat` component counts the calls
made so far to the injected `FnMut() -> bool` closure, so `rand_bool k` is the
value returned by its `(k+1)`-th invocation. -/
def btStep (rand_bool : Nat → Bool) (st : Maze × Nat) (cell : MazeCell) : Maze × Nat :=
  (btOpen st.1 (rand_bool st.2) cell, st.2 + 1)

/-- `Maze::binary_tree_with_rand_fn(width, height, rand_bool)`.  Note the
source transposes: it builds `Self::new(height, width)`. -/
def binary_tree_with_rand_fn (width height : Nat) (rand_bool : Nat → Bool) : Option Maze :=
  (Maze.new height width).map (fun maze =>
    ((iterRun (MazeIterator.new maze)).foldl (btStep rand_bool) (maze, 0)).1)

/-- `Maze::binary_tree(width, height)`: calls the testable variant with the
arguments swapped, threading the thread-rng boolean stream. -/
def binary_tree (width height : Nat) (rand_bool : Nat → Bool) : Option Maze :=
  binary_tree_with_rand_fn height width rand_bool

/-- State threaded through the sidewinder loop: the maze, the current run of
cells, and the number of calls made so far to each injected closure. -/
structure SwState where
  maze : Maze
  cells_in_run : List MazeCell
  boolCalls : Nat
  usizeCalls : Nat

/-- One loop iteration of `Maze::sidewinder_with_rand_fn`. -/
def swStep (rand_bool : Nat → Bool) (rand_usize : Nat → Nat)
    (st : SwState) (cell : MazeCell) : SwState :=
  let run := st.cells_in_run ++ [cell]
  if rand_bool st.boolCalls then
    let selected_cell_index := rand_usize st.usizeCalls % run.length
    let selected_cell := run.getD selected_cell_index (MazeCell.mk 0 0)
    match st.maze.open_north_wall selected_cell with
    | (m1, Except.ok _) =>
      SwState.mk m1 [] (st.boolCalls + 1) (st.usizeCalls + 1)
    | (m1, Except.error _) =>
      SwState.mk (m1.open_east_wall selected_cell).1 [] (st.boolCalls + 1) (st.usizeCalls + 1)
  else
    match st.maze.open_east_wall cell with
    | (m1, Except.ok _) =>
      SwState.mk m1 run (st.boolCalls + 1) st.usizeCalls
    | (m1, Except.error _) =>
      SwState.mk (m1.open_north_wall cell).1 [] (st.boolCalls + 1) st.usizeCalls

/-- `Maze::sidewinder_with_rand_fn(width, height, rand_bool, rand_usize)`.
Note the source transposes: it builds `Self::new(height, width)`. -/
def sidewinder_with_rand_fn (width height : Nat)
    (rand_bool : Nat → Bool) (rand_usize : Nat → Nat) : Option Maze :=
  (Maze.new height width).map (fun maze =>
    ((iterRun (MazeIterator.new maze)).foldl (swStep rand_bool rand_usize)
      (SwState.mk maze [] 0 0)).maze)

/-- `Maze::sidewinder(width, height)`: calls the testable variant with the
arguments swapped, threading the two thread-rng streams. -/
def sidewinder (width height : Nat)
    (rand_bool : Nat → Bool) (rand_usize : Nat → Nat) : Option Maze :=
  sidewinder_with_rand_fn height width rand_bool rand_usize

/-- Whether a wall is `Open`. -/
def Wall.isOpen : Wall → Bool
  | Wall.Open => true
  | Wall.Closed => false

/-- Number of walls currently in the `Open` state. -/
def countOpen (walls : List Wall) : Nat :=
  (walls.filter Wall.isOpen).length

/-! ### The iterator enumerates the grid in row-major order -/

/-- Starting inside a row, the iterator finishes the row and continues from
the start of the next one. -/
theorem iterRun_row (mx my y : Nat) (hy : y ≤ my) :
    ∀ n x, x + n = mx →
      iterRun (MazeIterator.mk x y mx my) =
        (List.range' x (n + 1)).map (fun i => MazeCell.mk i y) ++
          iterRun (MazeIterator.mk 0 (y + 1) mx my) := by
  intro n
  induction n with
  | zero =>
    intro x hx
    rw [iterRun]
    simp only [show x + 0 = x from rfl] at hx
    subst hx
    rw [if_neg (by dsimp only; omega), if_neg (by dsimp only; omega)]
    simp [List.range'_succ, List.range'_zero]
  | succ n ih =>
    intro x hx
    rw [iterRun]
    rw [if_neg (by dsimp only; omega), if_pos (by dsimp only; omega)]
    rw [ih (x + 1) (by omega)]
    simp [List.range'_succ]

/-- Starting at the left edge of row `y`, the iterator emits the rows
`y, y+1, …, my` in order, each row left to right. -/
theorem iterRun_rows (mx my : Nat) :
    ∀ k y, y + k = my + 1 →
      iterRun (MazeIterator.mk 0 y mx my) =
        (List.range' y k).flatMap
          (fun j => (List.range (mx + 1)).map (fun i => MazeCell.mk i j)) := by
  intro k
  induction k with
  | zero =>
    intro y hy
    rw [iterRun, if_pos (by dsimp only; omega)]
    simp
  | succ k ih =>
    intro y hy
    rw [iterRun_row mx my y (by omega) mx 0 (by omega)]
    rw [ih (y + 1) (by omega)]
    rw [show List.range' y (k + 1) = y :: List.range' (y + 1) k from List.range'_succ y k 1]
    rw [List.flatMap_cons, List.range_eq_range']

/-- For a maze of width `w ≥ 1` and height `h ≥ 1`, the iterator produces
exactly the row-major enumeration of the `w × h` grid. -/
theorem iterRun_eq_rowMajor (w h : Nat) (hw : 1 ≤ w) (hh : 1 ≤ h) :
    iterRun (MazeIterator.mk 0 0 (w - 1) (h - 1)) = rowMajor w h := by
  rw [iterRun_rows (w - 1) (h - 1) h 0 (by omega)]
  rw [show w - 1 + 1 = w from by omega]
  unfold rowMajor
  rw [List.range_eq_range' h]

/-! ### Computation lemmas: unfolding the generators on concrete grids -/

/-- `Maze.new` on positive dimensions, in closed form. -/
theorem new_eq (w h : Nat) (hw : 1 ≤ w) (hh : 1 ≤ h) :
    Maze.new w h =
      some (Maze.mk h w (List.replicate ((w - 1) * h + (h - 1) * w) Wall.Closed)) := by
  unfold Maze.new
  rw [if_neg (by omega)]

/-- `binary_tree_with_rand_fn` as a structural fold over the row-major cell
list (the iterator rewritten away). -/
theorem btwrf_eq (w h : Nat) (hw : 1 ≤ w) (hh : 1 ≤ h) (rb : Nat → Bool) :
    binary_tree_with_rand_fn w h rb =
      some (((rowMajor h w).foldl (btStep rb)
        (Maze.mk w h (List.replicate ((h - 1) * w + (w - 1) * h) Wall.Closed), 0)).1) := by
  unfold binary_tree_with_rand_fn
  rw [new_eq h w hh hw]
  rw [Option.map_some']
  rw [show MazeIterator.new
        (Maze.mk w h (List.replicate ((h - 1) * w + (w - 1) * h) Wall.Closed)) =
      MazeIterator.mk 0 0 (h - 1) (w - 1) from rfl]
  rw [iterRun_eq_rowMajor h w hh hw]

/-- `sidewinder_with_rand_fn` as a structural fold over the row-major cell
list (the iterator rewritten away). -/
theorem swwrf_eq (w h : Nat) (hw : 1 ≤ w) (hh : 1 ≤ h)
    (rb : Nat → Bool) (ru : Nat → Nat) :
    sidewinder_with_rand_fn w h rb ru =
      some (((rowMajor h w).foldl (swStep rb ru)
        (SwState.mk (Maze.mk w h (List.replicate ((h - 1) * w + (w - 1) * h) Wall.Closed))
          [] 0 0)).maze) := by
  unfold sidewinder_with_rand_fn
  rw [new_eq h w hh hw]
  rw [Option.map_some']
  rw [show MazeIterator.new
        (Maze.mk w h (List.replicate ((h - 1) * w + (w - 1) * h) Wall.Closed)) =
      MazeIterator.mk 0 0 (h - 1) (w - 1) from rfl]
  rw [iterRun_eq_rowMajor h w hh hw]

/-! ### Claim theorems: constructor, index arithmetic, deterministic runs -/

/-- C2: with a boolean generator fixed to `true`, binary-tree generation on a
3×3 grid opens exactly the north wall of every cell below the top row
(horizontal slots `x + y*3` for `y ∈ {0,1}`, i.e. slots 0–5) and the east
wall of the two top-row cells that have one (vertical slots
`6 + (2 + x*3)` for `x ∈ {0,1}`, i.e. slots 8 and 11); every other slot is
still `Closed`.  (The northeast cell has neither a north nor an east wall,
so it opens nothing.) -/
theorem C2_binary_tree_all_true_3x3 :
    binary_tree_with_rand_fn 3 3 (fun _ => true) =
      some (Maze.mk 3 3
        [Wall.Open, Wall.Open, Wall.Open, Wall.Open, Wall.Open, Wall.Open,
         Wall.Closed, Wall.Closed, Wall.Open, Wall.Closed, Wall.Closed, Wall.Open]) := by
  rw [btwrf_eq 3 3 (by omega) (by omega)]
  decide

/-- C3 counterexample: at `width = 0` the constructor does not return a
recoverable `InvalidDimension` error — it does not return at all.  The
`u32` subtraction `width - 1` overflows and the source documents "Panics if
height or width are < 1"; the panic is modelled as `none`. -/
theorem C3_counterexample : Maze.new 0 3 = none := by decide

/-- C3 amended: for `width = 0` or `height = 0`, `Maze::new` panics (modelled
as `none`) instead of returning an `InvalidDimension` error; no such error
type exists in the code. -/
theorem C3_amended_panic (w h : Nat) (hwh : w = 0 ∨ h = 0) : Maze.new w h = none := by
  unfold Maze.new
  rw [if_pos hwh]

/-- Witness for C3 amended at `width = 3`, `height = 0`. -/
theorem C3_amended_panic_witness : Maze.new 3 0 = none :=
  C3_amended_panic 3 0 (Or.inr rfl)

/-- C4: for an in-range cell of a maze with positive dimensions, the
north-wall lookup is `None` exactly on the top row and otherwise
`Some (x + y*width)`; the east-wall lookup is `None` exactly on the
right-most column and otherwise `Some ((height-1)*width + (y + x*height))`. -/
theorem C4_wall_index_formulas (w h x y : Nat) (m : Maze)
    (hW : m.width = w) (hH : m.height = h)
    (hx : x < w) (hy : y < h) :
    m.north_wall_index_for_cell x y =
      (if y = h - 1 then none else some (x + y * w)) ∧
    m.east_wall_index_for_cell x y =
      (if x = w - 1 then none else some ((h - 1) * w + (y + x * h))) := by
  subst hW hH
  unfold Maze.north_wall_index_for_cell Maze.east_wall_index_for_cell
  constructor
  · split_ifs <;> first | rfl | omega
  · split_ifs <;> first | rfl | omega

/-- Witness for C4 at the 3×3 all-closed maze, cell (1, 1). -/
theorem C4_wall_index_formulas_witness :
    (Maze.mk 3 3 (List.replicate 12 Wall.Closed)).north_wall_index_for_cell 1 1 =
      (if 1 = 3 - 1 then none else some (1 + 1 * 3)) ∧
    (Maze.mk 3 3 (List.replicate 12 Wall.Closed)).east_wall_index_for_cell 1 1 =
      (if 1 = 3 - 1 then none else some ((3 - 1) * 3 + (1 + 1 * 3))) :=
  C4_wall_index_formulas 3 3 1 1 (Maze.mk 3 3 (List.replicate 12 Wall.Closed))
    rfl rfl (by omega) (by omega)

/-- C5: for positive dimensions, construction succeeds and yields a wall
array of length exactly `(width-1)*height + (height-1)*width` in which every
wall is `Closed`. -/
theorem C5_new_all_closed (w h : Nat) (hw : 1 ≤ w) (hh : 1 ≤ h) :
    ∃ m, Maze.new w h = some m ∧
      m.walls.length = (w - 1) * h + (h - 1) * w ∧
      ∀ wl ∈ m.walls, wl = Wall.Closed := by
  refine ⟨_, new_eq w h hw hh, ?_, ?_⟩
  · simp
  · intro wl hwl
    exact List.eq_of_mem_replicate hwl

/-- Witness for C5 at a 3×2 grid. -/
theorem C5_new_all_closed_witness :
    ∃ m, Maze.new 3 2 = some m ∧
      m.walls.length = (3 - 1) * 2 + (2 - 1) * 3 ∧
      ∀ wl ∈ m.walls, wl = Wall.Closed :=
  C5_new_all_closed 3 2 (by omega) (by omega)

/-- C6: adjacent cells agree on the shared wall slot: the south-wall index of
`(x, y+1)` is (as an `Option`, hence in particular whenever both are
defined) the north-wall index of `(x, y)`, and the west-wall index of
`(x+1, y)` is the east-wall index of `(x, y)`. -/
theorem C6_shared_wall_symmetry (m : Maze) (x y : Nat) :
    m.south_wall_index_for_cell x (y + 1) = m.north_wall_index_for_cell x y ∧
    m.west_wall_index_for_cell (x + 1) y = m.east_wall_index_for_cell x y :=
  ⟨rfl, rfl⟩

/-- Boolean stream `T,T,T,T,T,T,F,T,F` used to refute the sidewinder half of
C1: rows 0 and 1 each open three north walls; on the top row the `F` opens
the east wall of (0,2), then the `T` selects (0,2) out of the two-cell run
and its top-row fallback re-opens that same east wall, and the final `F`
falls back to a nonexistent north wall at the northeast corner. -/
def swCexBool : Nat → Bool := fun n => !(n == 6 || n == 8)

/-- Integer stream fixed to 0 (selects the first cell of each run). -/
def swCexUsize : Nat → Nat := fun _ => 0

/-- C1 counterexample: on a 3×3 grid there is an injected random sequence
under which sidewinder generation leaves only 7 walls open, not
`3*3 - 1 = 8` — the claimed open-wall count does not hold for every random
sequence. -/
theorem C1_counterexample :
    (sidewinder_with_rand_fn 3 3 swCexBool swCexUsize).map (fun m => countOpen m.walls) =
      some 7 ∧ 7 ≠ 3 * 3 - 1 := by
  constructor
  · rw [swwrf_eq 3 3 (by omega) (by omega)]
    decide
  · decide

/-! ### Well-formedness and basic facts about the index arithmetic -/

/-- A maze whose recorded dimensions are `w × h` and whose wall array has the
length `Maze.new` allocates. -/
def WF (m : Maze) (w h : Nat) : Prop :=
  m.width = w ∧ m.height = h ∧ m.walls.length = (w - 1) * h + (h - 1) * w

theorem new_WF (w h : Nat) (hw : 1 ≤ w) (hh : 1 ≤ h) (m : Maze)
    (hm : Maze.new w h = some m) : WF m w h := by
  rw [new_eq w h hw hh] at hm
  obtain rfl : Maze.mk h w (List.replicate ((w - 1) * h + (h - 1) * w) Wall.Closed) = m :=
    Option.some.inj hm
  refine ⟨rfl, rfl, ?_⟩
  simp

theorem north_idx_spec (m : Maze) (x y i : Nat)
    (h : m.north_wall_index_for_cell x y = some i) :
    y < m.height - 1 ∧ i = x + y * m.width := by
  unfold Maze.north_wall_index_for_cell at h
  by_cases hc : m.height - 1 ≤ y
  · rw [if_pos hc] at h
    exact absurd h (by simp)
  · rw [if_neg hc] at h
    exact ⟨by omega, (Option.some.inj h).symm⟩

theorem east_idx_spec (m : Maze) (x y i : Nat)
    (h : m.east_wall_index_for_cell x y = some i) :
    x < m.width - 1 ∧ i = (m.height - 1) * m.width + (y + x * m.height) := by
  unfold Maze.east_wall_index_for_cell at h
  by_cases hc : m.width - 1 ≤ x
  · rw [if_pos hc] at h
    exact absurd h (by simp)
  · rw [if_neg hc] at h
    exact ⟨by omega, (Option.some.inj h).symm⟩

theorem north_idx_some (m : Maze) (x y : Nat) (hy : y < m.height - 1) :
    m.north_wall_index_for_cell x y = some (x + y * m.width) := by
  unfold Maze.north_wall_index_for_cell
  rw [if_neg (by omega)]

theorem north_idx_none (m : Maze) (x y : Nat) (hy : m.height - 1 ≤ y) :
    m.north_wall_index_for_cell x y = none := by
  unfold Maze.north_wall_index_for_cell
  rw [if_pos hy]

theorem east_idx_some (m : Maze) (x y : Nat) (hx : x < m.width - 1) :
    m.east_wall_index_for_cell x y =
      some ((m.height - 1) * m.width + (y + x * m.height)) := by
  unfold Maze.east_wall_index_for_cell
  rw [if_neg (by omega)]

theorem east_idx_none (m : Maze) (x y : Nat) (hx : m.width - 1 ≤ x) :
    m.east_wall_index_for_cell x y = none := by
  unfold Maze.east_wall_index_for_cell
  rw [if_pos hx]

/-- A horizontal (north/south) slot lies in the first block of the array. -/
theorem north_block_lt (W H x y : Nat) (hx : x < W) (hy : y < H - 1) :
    x + y * W < (H - 1) * W := by
  have h1 : x + y * W < (y + 1) * W := by
    rw [Nat.succ_mul]
    omega
  exact Nat.lt_of_lt_of_le h1 (Nat.mul_le_mul_right W (by omega))

/-- A vertical (east/west) slot lies within the array. -/
theorem east_block_lt (W H x y : Nat) (hx : x < W - 1) (hy : y < H) :
    (H - 1) * W + (y + x * H) < (W - 1) * H + (H - 1) * W := by
  have h1 : y + x * H < (x + 1) * H := by
    rw [Nat.succ_mul]
    omega
  have h2 : (x + 1) * H ≤ (W - 1) * H := Nat.mul_le_mul_right H (by omega)
  omega

theorem north_idx_lt (m : Maze) (w h x y i : Nat) (hWF : WF m w h)
    (hx : x < w) (hidx : m.north_wall_index_for_cell x y = some i) :
    i < m.walls.length := by
  obtain ⟨hW, hH, hL⟩ := hWF
  obtain ⟨hy, rfl⟩ := north_idx_spec m x y i hidx
  rw [hW, hH] at *
  have := north_block_lt w h x y hx hy
  omega

theorem east_idx_lt (m : Maze) (w h x y i : Nat) (hWF : WF m w h)
    (hy : y < h) (hidx : m.east_wall_index_for_cell x y = some i) :
    i < m.walls.length := by
  obtain ⟨hW, hH, hL⟩ := hWF
  obtain ⟨hx, rfl⟩ := east_idx_spec m x y i hidx
  rw [hW, hH] at *
  have := east_block_lt w h x y hx hy
  omega

/-! ### Unfolding the open-wall operations -/

theorem open_north_wall_of_some (m : Maze) (c : MazeCell) (i : Nat)
    (h : m.north_wall_index_for_cell c.x c.y = some i) :
    m.open_north_wall c =
      (Maze.mk m.height m.width (m.walls.set i Wall.Open), Except.ok ()) := by
  unfold Maze.open_north_wall
  rw [h]

theorem open_north_wall_of_none (m : Maze) (c : MazeCell)
    (h : m.north_wall_index_for_cell c.x c.y = none) :
    m.open_north_wall c = (m, Except.error ()) := by
  unfold Maze.open_north_wall
  rw [h]

theorem open_east_wall_of_some (m : Maze) (c : MazeCell) (i : Nat)
    (h : m.east_wall_index_for_cell c.x c.y = some i) :
    m.open_east_wall c =
      (Maze.mk m.height m.width (m.walls.set i Wall.Open), Except.ok ()) := by
  unfold Maze.open_east_wall
  rw [h]

theorem open_east_wall_of_none (m : Maze) (c : MazeCell)
    (h : m.east_wall_index_for_cell c.x c.y = none) :
    m.open_east_wall c = (m, Except.error ()) := by
  unfold Maze.open_east_wall
  rw [h]

/-- C7: for an in-range cell of a well-formed maze, `open_north_wall` errors
exactly on the top row and `open_east_wall` errors exactly on the right-most
column; on error the maze (hence the entire wall array) is unchanged, and on
success the addressed slot becomes `Open`. -/
theorem C7_open_wall_behaviour (w h x y : Nat) (m : Maze)
    (hWF : WF m w h) (hx : x < w) (hy : y < h) :
    (((m.open_north_wall (MazeCell.mk x y)).2 = Except.error ()) ↔ y = h - 1) ∧
    (((m.open_east_wall (MazeCell.mk x y)).2 = Except.error ()) ↔ x = w - 1) ∧
    (y = h - 1 → (m.open_north_wall (MazeCell.mk x y)).1 = m) ∧
    (x = w - 1 → (m.open_east_wall (MazeCell.mk x y)).1 = m) ∧
    (y ≠ h - 1 → (m.open_north_wall (MazeCell.mk x y)).2 = Except.ok () ∧
      (m.open_north_wall (MazeCell.mk x y)).1.walls =
        m.walls.set (x + y * w) Wall.Open ∧
      (m.open_north_wall (MazeCell.mk x y)).1.walls[x + y * w]? = some Wall.Open) ∧
    (x ≠ w - 1 → (m.open_east_wall (MazeCell.mk x y)).2 = Except.ok () ∧
      (m.open_east_wall (MazeCell.mk x y)).1.walls =
        m.walls.set ((h - 1) * w + (y + x * h)) Wall.Open ∧
      (m.open_east_wall (MazeCell.mk x y)).1.walls[(h - 1) * w + (y + x * h)]? =
        some Wall.Open) := by
  obtain ⟨hW, hH, hL⟩ := hWF
  by_cases hn : y = h - 1
  · have hnone : m.north_wall_index_for_cell x y = none :=
      north_idx_none m x y (by omega)
    have hNn := open_north_wall_of_none m (MazeCell.mk x y) hnone
    by_cases he : x = w - 1
    · have henone : m.east_wall_index_for_cell x y = none :=
        east_idx_none m x y (by omega)
      have hEn := open_east_wall_of_none m (MazeCell.mk x y) henone
      rw [hNn, hEn]
      refine ⟨by simp [hn], by simp [he], fun _ => rfl, fun _ => rfl, ?_, ?_⟩ <;>
        (intro hc; omega)
    · have hesome : m.east_wall_index_for_cell x y =
          some ((m.height - 1) * m.width + (y + x * m.height)) :=
        east_idx_some m x y (by omega)
      have hEs := open_east_wall_of_some m (MazeCell.mk x y) _ hesome
      rw [hNn, hEs]
      refine ⟨by simp [hn], by simp [he], fun _ => rfl, fun hc => absurd hc he, ?_, ?_⟩
      · intro hc; omega
      · intro _
        refine ⟨rfl, by rw [hW, hH], ?_⟩
        have hlt : (h - 1) * w + (y + x * h) < m.walls.length := by
          have := east_block_lt w h x y (by omega) hy
          omega
        rw [hW, hH]
        exact List.getElem?_set_self (by simpa using hlt)
  · have hsome : m.north_wall_index_for_cell x y =
        some (x + y * m.width) := north_idx_some m x y (by omega)
    have hNs := open_north_wall_of_some m (MazeCell.mk x y) _ hsome
    have hnlt : x + y * w < m.walls.length := by
      have := north_block_lt w h x y hx (by omega)
      omega
    by_cases he : x = w - 1
    · have henone : m.east_wall_index_for_cell x y = none :=
        east_idx_none m x y (by omega)
      have hEn := open_east_wall_of_none m (MazeCell.mk x y) henone
      rw [hNs, hEn]
      refine ⟨by simp [hn], by simp [he], fun hc => absurd hc hn, fun _ => rfl, ?_, ?_⟩
      · intro _
        refine ⟨rfl, by rw [hW], ?_⟩
        rw [hW]
        exact List.getElem?_set_self (by simpa using hnlt)
      · intro hc; omega
    · have hesome : m.east_wall_index_for_cell x y =
          some ((m.height - 1) * m.width + (y + x * m.height)) :=
        east_idx_some m x y (by omega)
      have hEs := open_east_wall_of_some m (MazeCell.mk x y) _ hesome
      rw [hNs, hEs]
      have helt : (h - 1) * w + (y + x * h) < m.walls.length := by
        have := east_block_lt w h x y (by omega) hy
        omega
      refine ⟨by simp [hn], by simp [he], fun hc => absurd hc hn,
        fun hc => absurd hc he, ?_, ?_⟩
      · intro _
        refine ⟨rfl, by rw [hW], ?_⟩
        rw [hW]
        exact List.getElem?_set_self (by simpa using hnlt)
      · intro _
        refine ⟨rfl, by rw [hW, hH], ?_⟩
        rw [hW, hH]
        exact List.getElem?_set_self (by simpa using helt)

/-- Witness for C7 at the 3×3 all-closed maze, cell (1, 1). -/
theorem C7_open_wall_behaviour_witness :
    let m := Maze.mk 3 3 (List.replicate 12 Wall.Closed)
    (((m.open_north_wall (MazeCell.mk 1 1)).2 = Except.error ()) ↔ 1 = 3 - 1) ∧
    (((m.open_east_wall (MazeCell.mk 1 1)).2 = Except.error ()) ↔ 1 = 3 - 1) ∧
    (1 = 3 - 1 → (m.open_north_wall (MazeCell.mk 1 1)).1 = m) ∧
    (1 = 3 - 1 → (m.open_east_wall (MazeCell.mk 1 1)).1 = m) ∧
    (1 ≠ 3 - 1 → (m.open_north_wall (MazeCell.mk 1 1)).2 = Except.ok () ∧
      (m.open_north_wall (MazeCell.mk 1 1)).1.walls =
        m.walls.set (1 + 1 * 3) Wall.Open ∧
      (m.open_north_wall (MazeCell.mk 1 1)).1.walls[1 + 1 * 3]? = some Wall.Open) ∧
    (1 ≠ 3 - 1 → (m.open_east_wall (MazeCell.mk 1 1)).2 = Except.ok () ∧
      (m.open_east_wall (MazeCell.mk 1 1)).1.walls =
        m.walls.set ((3 - 1) * 3 + (1 + 1 * 3)) Wall.Open ∧
      (m.open_east_wall (MazeCell.mk 1 1)).1.walls[(3 - 1) * 3 + (1 + 1 * 3)]? =
        some Wall.Open) :=
  C7_open_wall_behaviour 3 3 1 1 (Maze.mk 3 3 (List.replicate 12 Wall.Closed))
    ⟨rfl, rfl, by simp⟩ (by omega) (by omega)

/-- Setting a slot to the value it already holds leaves the list unchanged. -/
theorem set_of_getElem_eq {α : Type} (l : List α) (i : Nat) (a : α)
    (h : l[i]? = some a) : l.set i a = l := by
  induction l generalizing i with
  | nil => simp at h
  | cons x xs ih =>
    cases i with
    | zero =>
      simp only [List.getElem?_cons_zero, Option.some.injEq] at h
      simp [h]
    | succ j =>
      simp only [List.getElem?_cons_succ] at h
      simp [ih j h]

/-- C8: opening a wall that is already `Open` is a no-op — the maze (hence
every slot of the wall array) is left identical, and the call reports
success. -/
theorem C8_open_idempotent (m : Maze) (c : MazeCell) :
    (∀ i, m.north_wall_index_for_cell c.x c.y = some i →
      m.walls[i]? = some Wall.Open →
      (m.open_north_wall c).1 = m ∧ (m.open_north_wall c).2 = Except.ok ()) ∧
    (∀ i, m.east_wall_index_for_cell c.x c.y = some i →
      m.walls[i]? = some Wall.Open →
      (m.open_east_wall c).1 = m ∧ (m.open_east_wall c).2 = Except.ok ()) := by
  constructor
  · intro i hidx hopen
    rw [open_north_wall_of_some m c i hidx]
    exact ⟨by rw [set_of_getElem_eq m.walls i Wall.Open hopen], rfl⟩
  · intro i hidx hopen
    rw [open_east_wall_of_some m c i hidx]
    exact ⟨by rw [set_of_getElem_eq m.walls i Wall.Open hopen], rfl⟩

/-- A 3×3 maze in which the north wall and the east wall of cell (0,0)
(slots 0 and 6) are already open. -/
def mOpened : Maze :=
  Maze.mk 3 3 (((List.replicate 12 Wall.Closed).set 0 Wall.Open).set 6 Wall.Open)

/-- Witness for C8: re-opening the already-open walls of cell (0,0) in
`mOpened` changes nothing. -/
theorem C8_open_idempotent_witness :
    ((mOpened.open_north_wall (MazeCell.mk 0 0)).1 = mOpened ∧
      (mOpened.open_north_wall (MazeCell.mk 0 0)).2 = Except.ok ()) ∧
    ((mOpened.open_east_wall (MazeCell.mk 0 0)).1 = mOpened ∧
      (mOpened.open_east_wall (MazeCell.mk 0 0)).2 = Except.ok ()) :=
  ⟨(C8_open_idempotent mOpened (MazeCell.mk 0 0)).1 0 (by decide) (by decide),
   (C8_open_idempotent mOpened (MazeCell.mk 0 0)).2 6 (by decide) (by decide)⟩

/-! ### Generation preserves the recorded dimensions -/

theorem open_north_wall_dims (m : Maze) (c : MazeCell) :
    (m.open_north_wall c).1.width = m.width ∧
    (m.open_north_wall c).1.height = m.height := by
  cases h : m.north_wall_index_for_cell c.x c.y with
  | none => rw [open_north_wall_of_none m c h]; exact ⟨rfl, rfl⟩
  | some i => rw [open_north_wall_of_some m c i h]; exact ⟨rfl, rfl⟩

theorem open_east_wall_dims (m : Maze) (c : MazeCell) :
    (m.open_east_wall c).1.width = m.width ∧
    (m.open_east_wall c).1.height = m.height := by
  cases h : m.east_wall_index_for_cell c.x c.y with
  | none => rw [open_east_wall_of_none m c h]; exact ⟨rfl, rfl⟩
  | some i => rw [open_east_wall_of_some m c i h]; exact ⟨rfl, rfl⟩

theorem btOpen_dims (m : Maze) (b : Bool) (c : MazeCell) :
    (btOpen m b c).width = m.width ∧ (btOpen m b c).height = m.height := by
  unfold btOpen
  split
  · split
    next m1 u heq =>
      have h := congrArg Prod.fst heq
      dsimp only at h
      rw [← h]
      exact open_north_wall_dims m c
    next m1 u heq =>
      have h := congrArg Prod.fst heq
      dsimp only at h
      constructor
      · rw [(open_east_wall_dims m1 c).1, ← h]
        exact (open_north_wall_dims m c).1
      · rw [(open_east_wall_dims m1 c).2, ← h]
        exact (open_north_wall_dims m c).2
  · split
    next m1 u heq =>
      have h := congrArg Prod.fst heq
      dsimp only at h
      rw [← h]
      exact open_east_wall_dims m c
    next m1 u heq =>
      have h := congrArg Prod.fst heq
      dsimp only at h
      constructor
      · rw [(open_north_wall_dims m1 c).1, ← h]
        exact (open_east_wall_dims m c).1
      · rw [(open_north_wall_dims m1 c).2, ← h]
        exact (open_east_wall_dims m c).2

theorem btFold_dims (rb : Nat → Bool) (cells : List MazeCell) :
    ∀ (m : Maze) (k : Nat),
      (cells.foldl (btStep rb) (m, k)).1.width = m.width ∧
      (cells.foldl (btStep rb) (m, k)).1.height = m.height := by
  induction cells with
  | nil => intro m k; exact ⟨rfl, rfl⟩
  | cons c rest ih =>
    intro m k
    rw [List.foldl_cons]
    have h1 := btOpen_dims m (rb k) c
    have h2 := ih (btOpen m (rb k) c) (k + 1)
    exact ⟨h2.1.trans h1.1, h2.2.trans h1.2⟩

theorem swStep_dims (rb : Nat → Bool) (ru : Nat → Nat) (st : SwState) (c : MazeCell) :
    (swStep rb ru st c).maze.width = st.maze.width ∧
    (swStep rb ru st c).maze.height = st.maze.height := by
  unfold swStep
  dsimp only
  split
  · split
    next m1 u heq =>
      have h := congrArg Prod.fst heq
      dsimp only at h ⊢
      rw [← h]
      exact open_north_wall_dims st.maze _
    next m1 u heq =>
      have h := congrArg Prod.fst heq
      dsimp only at h ⊢
      constructor
      · rw [(open_east_wall_dims m1 _).1, ← h]
        exact (open_north_wall_dims st.maze _).1
      · rw [(open_east_wall_dims m1 _).2, ← h]
        exact (open_north_wall_dims st.maze _).2
  · split
    next m1 u heq =>
      have h := congrArg Prod.fst heq
      dsimp only at h ⊢
      rw [← h]
      exact open_east_wall_dims st.maze c
    next m1 u heq =>
      have h := congrArg Prod.fst heq
      dsimp only at h ⊢
      constructor
      · rw [(open_north_wall_dims m1 c).1, ← h]
        exact (open_east_wall_dims st.maze c).1
      · rw [(open_north_wall_dims m1 c).2, ← h]
        exact (open_east_wall_dims st.maze c).2

theorem swFold_dims (rb : Nat → Bool) (ru : Nat → Nat) (cells : List MazeCell) :
    ∀ (st : SwState),
      (cells.foldl (swStep rb ru) st).maze.width = st.maze.width ∧
      (cells.foldl (swStep rb ru) st).maze.height = st.maze.height := by
  induction cells with
  | nil => intro st; exact ⟨rfl, rfl⟩
  | cons c rest ih =>
    intro st
    rw [List.foldl_cons]
    have h1 := swStep_dims rb ru st c
    have h2 := ih (swStep rb ru st c)
    exact ⟨h2.1.trans h1.1, h2.2.trans h1.2⟩

/-- C9: the testable generator variants transpose their dimension arguments —
`binary_tree_with_rand_fn w h …` and `sidewinder_with_rand_fn w h …` build
grids of width `h` and height `w` — while the public constructors pass their
arguments swapped into those variants, so the two swaps cancel and
`binary_tree w h` / `sidewinder w h` return a maze of width `w` and
height `h`. -/
theorem C9_dimension_transposition (w h : Nat) (hw : 1 ≤ w) (hh : 1 ≤ h)
    (rb : Nat → Bool) (ru : Nat → Nat) :
    (∃ m, binary_tree_with_rand_fn w h rb = some m ∧ m.width = h ∧ m.height = w) ∧
    (∃ m, sidewinder_with_rand_fn w h rb ru = some m ∧ m.width = h ∧ m.height = w) ∧
    binary_tree w h rb = binary_tree_with_rand_fn h w rb ∧
    sidewinder w h rb ru = sidewinder_with_rand_fn h w rb ru ∧
    (∃ m, binary_tree w h rb = some m ∧ m.width = w ∧ m.height = h) ∧
    (∃ m, sidewinder w h rb ru = some m ∧ m.width = w ∧ m.height = h) := by
  have hbt : ∀ (a b : Nat), 1 ≤ a → 1 ≤ b →
      ∃ m, binary_tree_with_rand_fn a b rb = some m ∧ m.width = b ∧ m.height = a := by
    intro a b ha hb
    rw [btwrf_eq a b ha hb rb]
    refine ⟨_, rfl, ?_, ?_⟩
    · exact (btFold_dims rb (rowMajor b a)
        (Maze.mk a b (List.replicate ((b - 1) * a + (a - 1) * b) Wall.Closed)) 0).1
    · exact (btFold_dims rb (rowMajor b a)
        (Maze.mk a b (List.replicate ((b - 1) * a + (a - 1) * b) Wall.Closed)) 0).2
  have hsw : ∀ (a b : Nat), 1 ≤ a → 1 ≤ b →
      ∃ m, sidewinder_with_rand_fn a b rb ru = some m ∧ m.width = b ∧ m.height = a := by
    intro a b ha hb
    rw [swwrf_eq a b ha hb rb ru]
    refine ⟨_, rfl, ?_, ?_⟩
    · exact (swFold_dims rb ru (rowMajor b a)
        (SwState.mk (Maze.mk a b (List.replicate ((b - 1) * a + (a - 1) * b) Wall.Closed))
          [] 0 0)).1
    · exact (swFold_dims rb ru (rowMajor b a)
        (SwState.mk (Maze.mk a b (List.replicate ((b - 1) * a + (a - 1) * b) Wall.Closed))
          [] 0 0)).2
  exact ⟨hbt w h hw hh, hsw w h hw hh, rfl, rfl, hbt h w hh hw, hsw h w hh hw⟩

/-- Witness for C9 at a 2×3 grid with fixed random streams. -/
theorem C9_dimension_transposition_witness :
    (∃ m, binary_tree_with_rand_fn 2 3 (fun _ => true) = some m ∧
      m.width = 3 ∧ m.height = 2) ∧
    (∃ m, sidewinder_with_rand_fn 2 3 (fun _ => true) (fun _ => 0) = some m ∧
      m.width = 3 ∧ m.height = 2) ∧
    binary_tree 2 3 (fun _ => true) = binary_tree_with_rand_fn 3 2 (fun _ => true) ∧
    sidewinder 2 3 (fun _ => true) (fun _ => 0) =
      sidewinder_with_rand_fn 3 2 (fun _ => true) (fun _ => 0) ∧
    (∃ m, binary_tree 2 3 (fun _ => true) = some m ∧ m.width = 2 ∧ m.height = 3) ∧
    (∃ m, sidewinder 2 3 (fun _ => true) (fun _ => 0) = some m ∧
      m.width = 2 ∧ m.height = 3) :=
  C9_dimension_transposition 2 3 (by omega) (by omega) (fun _ => true) (fun _ => 0)

/-! ### Counting open walls after binary-tree generation -/

/-- The northeast corner cell — the only cell that opens no wall. -/
def neCorner (w h : Nat) : MazeCell := MazeCell.mk (w - 1) (h - 1)

/-- Both wall slots owned by a cell (its north and east slot, when they
exist) are still `Closed`. -/
def cellClosed (m : Maze) (c : MazeCell) : Prop :=
  (∀ i, m.north_wall_index_for_cell c.x c.y = some i →
    m.walls[i]? = some Wall.Closed) ∧
  (∀ i, m.east_wall_index_for_cell c.x c.y = some i →
    m.walls[i]? = some Wall.Closed)

theorem cell_eq_of_xy (c c' : MazeCell) (h1 : c.x = c'.x) (h2 : c.y = c'.y) :
    c = c' := by
  cases c
  cases c'
  simp_all

theorem countOpen_cons (x : Wall) (l : List Wall) :
    countOpen (x :: l) = countOpen l + (if x.isOpen then 1 else 0) := by
  unfold countOpen
  cases hx : Wall.isOpen x <;> simp [List.filter_cons, hx]

theorem countOpen_replicate_closed (n : Nat) :
    countOpen (List.replicate n Wall.Closed) = 0 := by
  induction n with
  | zero => rfl
  | succ k ih =>
    rw [List.replicate_succ, countOpen_cons, ih]
    simp [Wall.isOpen]

/-- Opening a closed slot increases the open-wall count by exactly one. -/
theorem countOpen_set_open (l : List Wall) (i : Nat)
    (h : l[i]? = some Wall.Closed) :
    countOpen (l.set i Wall.Open) = countOpen l + 1 := by
  induction l generalizing i with
  | nil => simp at h
  | cons x xs ih =>
    cases i with
    | zero =>
      simp only [List.getElem?_cons_zero, Option.some.injEq] at h
      subst h
      rw [List.set_cons_zero, countOpen_cons, countOpen_cons]
      simp [Wall.isOpen]
    | succ j =>
      simp only [List.getElem?_cons_succ] at h
      rw [List.set_cons_succ, countOpen_cons, countOpen_cons, ih j h]
      omega

/-- Distinct in-range `(x, y)` pairs give distinct horizontal slots. -/
theorem north_slot_inj (W x y x' y' : Nat) (hx : x < W) (hx' : x' < W)
    (heq : x + y * W = x' + y' * W) : x = x' ∧ y = y' := by
  have hW : 0 < W := Nat.lt_of_le_of_lt (Nat.zero_le x) hx
  have h1 : x = x' := by
    have h2 := congrArg (fun t => t % W) heq
    dsimp only at h2
    rwa [Nat.add_mul_mod_self_right, Nat.add_mul_mod_self_right,
      Nat.mod_eq_of_lt hx, Nat.mod_eq_of_lt hx'] at h2
  refine ⟨h1, ?_⟩
  subst h1
  exact Nat.eq_of_mul_eq_mul_right hW (Nat.add_left_cancel heq)

/-- A horizontal slot never coincides with a vertical slot. -/
theorem north_slot_ne_east_slot (W H x y y' x' : Nat) (hx : x < W) (hy : y < H - 1) :
    x + y * W ≠ (H - 1) * W + (y' + x' * H) :=
  Nat.ne_of_lt
    (Nat.lt_of_lt_of_le (north_block_lt W H x y hx hy) (Nat.le_add_right _ _))

/-- Exactly which maze `btOpen` produces: either the cell is the northeast
corner and nothing changes, or exactly one slot owned by the cell is set to
`Open`. -/
theorem btOpen_cases (m : Maze) (b : Bool) (c : MazeCell) :
    (m.north_wall_index_for_cell c.x c.y = none ∧
     m.east_wall_index_for_cell c.x c.y = none ∧
     btOpen m b c = m) ∨
    (∃ i, (m.north_wall_index_for_cell c.x c.y = some i ∨
           m.east_wall_index_for_cell c.x c.y = some i) ∧
      btOpen m b c = Maze.mk m.height m.width (m.walls.set i Wall.Open)) := by
  cases b
  · cases he : m.east_wall_index_for_cell c.x c.y with
    | some j =>
      right
      refine ⟨j, Or.inr rfl, ?_⟩
      unfold btOpen
      rw [if_neg (by simp), open_east_wall_of_some m c j he]
    | none =>
      cases hn : m.north_wall_index_for_cell c.x c.y with
      | some i =>
        right
        refine ⟨i, Or.inl rfl, ?_⟩
        unfold btOpen
        rw [if_neg (by simp), open_east_wall_of_none m c he]
        show (m.open_north_wall c).1 =
          Maze.mk m.height m.width (m.walls.set i Wall.Open)
        rw [open_north_wall_of_some m c i hn]
      | none =>
        left
        refine ⟨rfl, rfl, ?_⟩
        unfold btOpen
        rw [if_neg (by simp), open_east_wall_of_none m c he]
        show (m.open_north_wall c).1 = m
        rw [open_north_wall_of_none m c hn]
  · cases hn : m.north_wall_index_for_cell c.x c.y with
    | some i =>
      right
      refine ⟨i, Or.inl rfl, ?_⟩
      unfold btOpen
      rw [if_pos rfl, open_north_wall_of_some m c i hn]
    | none =>
      cases he : m.east_wall_index_for_cell c.x c.y with
      | some j =>
        right
        refine ⟨j, Or.inr rfl, ?_⟩
        unfold btOpen
        rw [if_pos rfl, open_north_wall_of_none m c hn]
        show (m.open_east_wall c).1 =
          Maze.mk m.height m.width (m.walls.set j Wall.Open)
        rw [open_east_wall_of_some m c j he]
      | none =>
        left
        refine ⟨rfl, rfl, ?_⟩
        unfold btOpen
        rw [if_pos rfl, open_north_wall_of_none m c hn]
        show (m.open_east_wall c).1 = m
        rw [open_east_wall_of_none m c he]

theorem btOpen_walls_length (m : Maze) (b : Bool) (c : MazeCell) :
    (btOpen m b c).walls.length = m.walls.length := by
  rcases btOpen_cases m b c with ⟨_, _, heq⟩ | ⟨i, _, heq⟩ <;> simp [heq]

theorem btOpen_WF (w h : Nat) (m : Maze) (b : Bool) (c : MazeCell)
    (hWF : WF m w h) : WF (btOpen m b c) w h :=
  ⟨(btOpen_dims m b c).1.trans hWF.1, (btOpen_dims m b c).2.trans hWF.2.1,
    (btOpen_walls_length m b c).trans hWF.2.2⟩

/-- `btOpen` at cell `c` leaves the slots of every other in-range cell
untouched (slot disjointness). -/
theorem btOpen_preserves_closed (w h : Nat) (m : Maze) (b : Bool) (c c' : MazeCell)
    (hWF : WF m w h) (hx : c.x < w) (hy : c.y < h) (hx' : c'.x < w) (hy' : c'.y < h)
    (hne : c' ≠ c) (hcl' : cellClosed m c') :
    cellClosed (btOpen m b c) c' := by
  obtain ⟨hW, hH, hL⟩ := hWF
  rcases btOpen_cases m b c with ⟨_, _, heq⟩ | ⟨i, hi, heq⟩
  · rw [heq]
    exact hcl'
  · rw [heq]
    constructor
    · intro j hj
      have hj' : m.north_wall_index_for_cell c'.x c'.y = some j := hj
      obtain ⟨hyj, hjeq⟩ := north_idx_spec m c'.x c'.y j hj'
      have hji : i ≠ j := by
        rcases hi with hiN | hiE
        · obtain ⟨hyc, hieq⟩ := north_idx_spec m c.x c.y i hiN
          intro hcontra
          rw [hieq, hjeq] at hcontra
          obtain ⟨hx1, hy1⟩ :=
            north_slot_inj m.width c.x c.y c'.x c'.y (by omega) (by omega) hcontra
          exact hne (cell_eq_of_xy c' c hx1.symm hy1.symm)
        · obtain ⟨hxc, hieq⟩ := east_idx_spec m c.x c.y i hiE
          rw [hieq, hjeq]
          exact (north_slot_ne_east_slot m.width m.height c'.x c'.y c.y c.x
            (by omega) hyj).symm
      show (m.walls.set i Wall.Open)[j]? = some Wall.Closed
      rw [List.getElem?_set_ne hji]
      exact hcl'.1 j hj'
    · intro j hj
      have hj' : m.east_wall_index_for_cell c'.x c'.y = some j := hj
      obtain ⟨hxj, hjeq⟩ := east_idx_spec m c'.x c'.y j hj'
      have hji : i ≠ j := by
        rcases hi with hiN | hiE
        · obtain ⟨hyc, hieq⟩ := north_idx_spec m c.x c.y i hiN
          rw [hieq, hjeq]
          exact north_slot_ne_east_slot m.width m.height c.x c.y c'.y c'.x
            (by omega) hyc
        · obtain ⟨hxc, hieq⟩ := east_idx_spec m c.x c.y i hiE
          intro hcontra
          rw [hieq, hjeq] at hcontra
          have hcancel := Nat.add_left_cancel hcontra
          obtain ⟨hy1, hx1⟩ :=
            north_slot_inj m.height c.y c.x c'.y c'.x (by omega) (by omega) hcancel
          exact hne (cell_eq_of_xy c' c hx1.symm hy1.symm)
      show (m.walls.set i Wall.Open)[j]? = some Wall.Closed
      rw [List.getElem?_set_ne hji]
      exact hcl'.2 j hj'

/-- One binary-tree step on an in-range cell whose own slots are still closed
opens exactly one wall — unless the cell is the northeast corner, which
opens none. -/
theorem btOpen_countOpen (w h : Nat) (m : Maze) (b : Bool) (c : MazeCell)
    (hWF : WF m w h) (hx : c.x < w) (hy : c.y < h) (hcl : cellClosed m c) :
    countOpen (btOpen m b c).walls =
      countOpen m.walls + (if c = neCorner w h then 0 else 1) := by
  obtain ⟨hW, hH, hL⟩ := hWF
  rcases btOpen_cases m b c with ⟨hn, he, heq⟩ | ⟨i, hi, heq⟩
  · have h1 : m.height - 1 ≤ c.y := by
      by_contra hc
      rw [north_idx_some m c.x c.y (by omega)] at hn
      exact absurd hn (by simp)
    have h2 : m.width - 1 ≤ c.x := by
      by_contra hc
      rw [east_idx_some m c.x c.y (by omega)] at he
      exact absurd he (by simp)
    have hceq : c = neCorner w h :=
      cell_eq_of_xy c (neCorner w h)
        (by show c.x = w - 1; omega) (by show c.y = h - 1; omega)
    rw [heq, if_pos hceq]
    omega
  · have hclosed : m.walls[i]? = some Wall.Closed := by
      rcases hi with hiN | hiE
      · exact hcl.1 i hiN
      · exact hcl.2 i hiE
    have hnec : c ≠ neCorner w h := by
      intro hceq
      rcases hi with hiN | hiE
      · obtain ⟨hyc, _⟩ := north_idx_spec m c.x c.y i hiN
        rw [hceq] at hyc
        simp only [neCorner] at hyc
        omega
      · obtain ⟨hxc, _⟩ := east_idx_spec m c.x c.y i hiE
        rw [hceq] at hxc
        simp only [neCorner] at hxc
        omega
    rw [heq, if_neg hnec]
    show countOpen (m.walls.set i Wall.Open) = countOpen m.walls + 1
    exact countOpen_set_open m.walls i hclosed

/-- Folding binary-tree steps over a duplicate-free list of in-range cells
whose slots are all still closed opens one wall per cell, except at the
northeast corner. -/
theorem btFold_countOpen (w h : Nat) (rb : Nat → Bool) :
    ∀ (cells : List MazeCell) (m : Maze) (k : Nat),
      WF m w h →
      (∀ c ∈ cells, c.x < w ∧ c.y < h) →
      cells.Nodup →
      (∀ c ∈ cells, cellClosed m c) →
      countOpen ((cells.foldl (btStep rb) (m, k)).1.walls) =
        countOpen m.walls +
          (cells.filter (fun c => decide (c ≠ neCorner w h))).length := by
  intro cells
  induction cells with
  | nil =>
    intro m k _ _ _ _
    simp
  | cons c rest ih =>
    intro m k hWF hin hnd hcl
    have hc := hin c (List.mem_cons_self c rest)
    have hccl := hcl c (List.mem_cons_self c rest)
    have hnd' := List.nodup_cons.mp hnd
    have hin' : ∀ c' ∈ rest, c'.x < w ∧ c'.y < h :=
      fun c' hc' => hin c' (List.mem_cons_of_mem c hc')
    have hcl' : ∀ c' ∈ rest, cellClosed (btOpen m (rb k) c) c' := by
      intro c' hc'
      have hne : c' ≠ c := fun hcc => hnd'.1 (hcc ▸ hc')
      exact btOpen_preserves_closed w h m (rb k) c c' hWF hc.1 hc.2
        (hin' c' hc').1 (hin' c' hc').2 hne (hcl c' (List.mem_cons_of_mem c hc'))
    rw [List.foldl_cons, List.filter_cons]
    have hstep : btStep rb (m, k) c = (btOpen m (rb k) c, k + 1) := rfl
    rw [hstep]
    rw [ih (btOpen m (rb k) c) (k + 1) (btOpen_WF w h m (rb k) c hWF) hin'
      hnd'.2 hcl']
    rw [btOpen_countOpen w h m (rb k) c hWF hc.1 hc.2 hccl]
    by_cases hne : c = neCorner w h
    · rw [if_pos hne, if_neg (by simp [hne])]
      omega
    · rw [if_neg hne, if_pos (by simp [hne])]
      simp only [List.length_cons]
      omega

/-! ### Facts about the row-major enumeration -/

theorem rowMajor_mem (w h : Nat) (c : MazeCell) (hc : c ∈ rowMajor w h) :
    c.x < w ∧ c.y < h := by
  unfold rowMajor at hc
  simp only [List.mem_flatMap, List.mem_map, List.mem_range] at hc
  obtain ⟨y, hy, x, hx, rfl⟩ := hc
  exact ⟨hx, hy⟩

theorem rowMajor_nodup (w h : Nat) : (rowMajor w h).Nodup := by
  unfold rowMajor
  rw [List.nodup_flatMap]
  constructor
  · intro y _
    apply List.Nodup.map
    · intro a b hab
      exact congrArg MazeCell.x hab
    · exact List.nodup_range w
  · apply List.Pairwise.imp ?_ (List.nodup_range h)
    intro y1 y2 hne a ha1 ha2
    simp only [List.mem_map, List.mem_range] at ha1 ha2
    obtain ⟨x1, _, rfl⟩ := ha1
    obtain ⟨x2, _, hx2⟩ := ha2
    exact hne (congrArg MazeCell.y hx2).symm

theorem rowMajor_length (w h : Nat) : (rowMajor w h).length = w * h := by
  unfold rowMajor
  rw [List.length_flatMap]
  have hmap : (List.range h).map (List.length ∘ fun y =>
      (List.range w).map (fun x => MazeCell.mk x y)) =
      (List.range h).map (fun _ => w) := by
    apply List.map_congr_left
    intro y _
    simp
  rw [hmap, List.map_const', List.sum_replicate, List.length_range,
    smul_eq_mul, Nat.mul_comm]

theorem neCorner_mem_rowMajor (w h : Nat) (hw : 1 ≤ w) (hh : 1 ≤ h) :
    neCorner w h ∈ rowMajor w h := by
  unfold rowMajor neCorner
  simp only [List.mem_flatMap, List.mem_map, List.mem_range]
  exact ⟨h - 1, by omega, w - 1, by omega, rfl⟩

/-- Dropping the single occurrence of a member from a duplicate-free list
shortens it by exactly one. -/
theorem filter_ne_of_nodup {α : Type} [DecidableEq α] (l : List α) (a : α)
    (hnd : l.Nodup) (hmem : a ∈ l) :
    (l.filter (fun c => decide (c ≠ a))).length = l.length - 1 := by
  induction l with
  | nil => simp at hmem
  | cons x xs ih =>
    have hnd' := List.nodup_cons.mp hnd
    rw [List.filter_cons]
    rcases List.mem_cons.mp hmem with rfl | hmem'
    · rw [if_neg (by simp)]
      have hfix : xs.filter (fun c => decide (c ≠ a)) = xs := by
        apply List.filter_eq_self.mpr
        intro b hb
        simp only [decide_eq_true_eq]
        intro hba
        exact hnd'.1 (hba ▸ hb)
      rw [hfix]
      simp
    · have hx : x ≠ a := by
        intro hxa
        exact hnd'.1 (hxa ▸ hmem')
      rw [if_pos (by simpa using hx)]
      have hlen := ih hnd'.2 hmem'
      have hpos : 1 ≤ xs.length := List.length_pos.mpr (List.ne_nil_of_mem hmem')
      simp only [List.length_cons, hlen]
      omega

/-- C1 amended: after binary-tree generation on any `w × h ≥ 1 × 1` grid, for
every injected boolean stream, exactly `w·h − 1` walls are `Open` (each cell
except the northeast corner opens exactly one wall it owns, and distinct
cells own disjoint slots). -/
theorem C1_amended_binary_tree_count (w h : Nat) (hw : 1 ≤ w) (hh : 1 ≤ h)
    (rb : Nat → Bool) :
    ∃ m, binary_tree_with_rand_fn w h rb = some m ∧
      countOpen m.walls = w * h - 1 := by
  rw [btwrf_eq w h hw hh rb]
  refine ⟨_, rfl, ?_⟩
  set m0 : Maze :=
    Maze.mk w h (List.replicate ((h - 1) * w + (w - 1) * h) Wall.Closed) with hm0
  have hWF : WF m0 h w := ⟨rfl, rfl, by simp [hm0]⟩
  have hcount := btFold_countOpen h w rb (rowMajor h w) m0 0 hWF
    (fun c hc => rowMajor_mem h w c hc)
    (rowMajor_nodup h w)
    ?_
  · rw [hcount]
    have h0 : countOpen m0.walls = 0 := countOpen_replicate_closed _
    have hfilter := filter_ne_of_nodup (rowMajor h w) (neCorner h w)
      (rowMajor_nodup h w) (neCorner_mem_rowMajor h w hh hw)
    rw [h0, hfilter, rowMajor_length h w]
    rw [Nat.mul_comm]
    omega
  · intro c hc
    obtain ⟨hx, hy⟩ := rowMajor_mem h w c hc
    constructor
    · intro i hidx
      have hlt : i < m0.walls.length := north_idx_lt m0 h w c.x c.y i hWF hx hidx
      show (List.replicate ((h - 1) * w + (w - 1) * h) Wall.Closed)[i]? =
        some Wall.Closed
      rw [List.getElem?_replicate_of_lt (by simpa [hm0] using hlt)]
    · intro i hidx
      have hlt : i < m0.walls.length := east_idx_lt m0 h w c.x c.y i hWF hy hidx
      show (List.replicate ((h - 1) * w + (w - 1) * h) Wall.Closed)[i]? =
        some Wall.Closed
      rw [List.getElem?_replicate_of_lt (by simpa [hm0] using hlt)]

/-- Witness for C1 amended at a 3×3 grid with the all-true stream. -/
theorem C1_amended_binary_tree_count_witness :
    ∃ m, binary_tree_with_rand_fn 3 3 (fun _ => true) = some m ∧
      countOpen m.walls = 3 * 3 - 1 :=
  C1_amended_binary_tree_count 3 3 (by omega) (by omega) (fun _ => true)

/-! ### The text renderer (`impl fmt::Display for Maze` and `get_corner`) -/

/-- `const LINE_ENDING: &str = "\n"`. -/
def LINE_ENDING : String := "\n"

/-- The 16-entry lookup table of the final match arm of `get_corner`, keyed by
`(east(x-1,y), north(x,y-1), east(x-1,y-1), north(x-1,y-1))`. -/
def cornerGlyph : Wall → Wall → Wall → Wall → String
  | Wall.Open, Wall.Open, Wall.Open, Wall.Open => " "
  | Wall.Open, Wall.Open, Wall.Open, Wall.Closed => "╴"
  | Wall.Open, Wall.Open, Wall.Closed, Wall.Open => "╷"
  | Wall.Open, Wall.Open, Wall.Closed, Wall.Closed => "┐"
  | Wall.Open, Wall.Closed, Wall.Open, Wall.Open => "╶"
  | Wall.Open, Wall.Closed, Wall.Open, Wall.Closed => "─"
  | Wall.Open, Wall.Closed, Wall.Closed, Wall.Open => "┌"
  | Wall.Open, Wall.Closed, Wall.Closed, Wall.Closed => "┬"
  | Wall.Closed, Wall.Open, Wall.Open, Wall.Open => "╵"
  | Wall.Closed, Wall.Open, Wall.Open, Wall.Closed => "┘"
  | Wall.Closed, Wall.Open, Wall.Closed, Wall.Open => "│"
  | Wall.Closed, Wall.Open, Wall.Closed, Wall.Closed => "┤"
  | Wall.Closed, Wall.Closed, Wall.Open, Wall.Open => "└"
  | Wall.Closed, Wall.Closed, Wall.Open, Wall.Closed => "┴"
  | Wall.Closed, Wall.Closed, Wall.Closed, Wall.Open => "├"
  | Wall.Closed, Wall.Closed, Wall.Closed, Wall.Closed => "┼"

/-- `get_corner(maze, x, y)`: the glyph for lattice point `(x, y)`.  The outer
`None` is the source's explicit out-of-grid check; a failing inner
`.unwrap()` or out-of-bounds wall access (which would panic in the source)
is also modelled as `none` via `Option.bind`. -/
def get_corner (m : Maze) (x y : Nat) : Option String :=
  if m.width < x ∨ m.height < y then none
  else if x = 0 ∧ y = 0 then some "└"
  else if x = 0 ∧ y = m.height then some "┌"
  else if y = 0 ∧ x = m.width then some "┘"
  else if x = m.width ∧ y = m.height then some "┐"
  else if x = 0 then
    (m.south_wall_index_for_cell 0 y).bind (fun i =>
      (m.walls[i]?).map (fun wl =>
        match wl with
        | Wall.Open => "│"
        | Wall.Closed => "├"))
  else if x = m.width then
    (m.south_wall_index_for_cell (x - 1) y).bind (fun i =>
      (m.walls[i]?).map (fun wl =>
        match wl with
        | Wall.Open => "│"
        | Wall.Closed => "┤"))
  else if y = 0 then
    (m.east_wall_index_for_cell (x - 1) 0).bind (fun i =>
      (m.walls[i]?).map (fun wl =>
        match wl with
        | Wall.Open => "─"
        | Wall.Closed => "┴"))
  else if y = m.height then
    (m.east_wall_index_for_cell (x - 1) (y - 1)).bind (fun i =>
      (m.walls[i]?).map (fun wl =>
        match wl with
        | Wall.Open => "─"
        | Wall.Closed => "┬"))
  else
    (m.east_wall_index_for_cell (x - 1) y).bind (fun i1 =>
    (m.walls[i1]?).bind (fun w1 =>
    (m.north_wall_index_for_cell x (y - 1)).bind (fun i2 =>
    (m.walls[i2]?).bind (fun w2 =>
    (m.east_wall_index_for_cell (x - 1) (y - 1)).bind (fun i3 =>
    (m.walls[i3]?).bind (fun w3 =>
    (m.north_wall_index_for_cell (x - 1) (y - 1)).bind (fun i4 =>
    (m.walls[i4]?).map (fun w4 => cornerGlyph w1 w2 w3 w4))))))))

/-- The top maze edge of the `Display` impl: `"┌"` followed, for `x` in
`1..=width`, by a horizontal segment and `get_corner(x, height)`. -/
def renderTopEdge (m : Maze) : Option String :=
  (List.range m.width).foldlM (fun acc i =>
    (get_corner m (i + 1) m.height).map (fun cg => acc ++ "───" ++ cg)) "┌"

/-- The east-wall text row for cell row `y`: the left maze edge followed, per
cell, by the cell interior and its east wall (or the right maze edge). -/
def renderEastRow (m : Maze) (y : Nat) : Option String :=
  (List.range m.width).foldlM (fun acc x =>
    match m.east_wall_index_for_cell x y with
    | some i => (m.walls[i]?).map (fun wl => acc ++ "   " ++
        (match wl with
         | Wall.Open => " "
         | Wall.Closed => "│"))
    | none => some (acc ++ "   " ++ "│")) "│"

/-- The south-wall/corner text row for cell row `y`: `get_corner(0, y)`
followed, per cell, by the south wall segment and `get_corner(x+1, y)`. -/
def renderSouthRow (m : Maze) (y : Nat) : Option String :=
  (get_corner m 0 y).bind (fun c0 =>
    (List.range m.width).foldlM (fun acc x =>
      (match m.south_wall_index_for_cell x y with
       | some i => (m.walls[i]?).map (fun wl =>
           match wl with
           | Wall.Open => "   "
           | Wall.Closed => "───")
       | none => some "───").bind (fun seg =>
        (get_corner m (x + 1) y).map (fun cg => acc ++ seg ++ cg))) c0)

/-- The full `Display` rendering: the top edge, then, for `y` from
`height-1` down to `0`, a newline, the east-wall row, a newline and the
south-wall/corner row.  `none` models any panicking `.unwrap()` or
out-of-bounds wall access. -/
def render (m : Maze) : Option String :=
  (renderTopEdge m).bind (fun top =>
    (List.range m.height).reverse.foldlM (fun acc y =>
      (renderEastRow m y).bind (fun er =>
        (renderSouthRow m y).map (fun sr =>
          acc ++ LINE_ENDING ++ er ++ LINE_ENDING ++ sr))) top)

/-! ### Totality of the renderer -/

/-- An `Option`-valued left fold succeeds when every step succeeds. -/
theorem foldlM_option_isSome {α β : Type} (f : β → α → Option β) :
    ∀ (l : List α), (∀ b : β, ∀ a ∈ l, (f b a).isSome) →
      ∀ (i : β), (l.foldlM f i).isSome := by
  intro l
  induction l with
  | nil =>
    intro _ i
    simp
  | cons a l ih =>
    intro hf i
    rw [List.foldlM_cons]
    obtain ⟨b, hb⟩ := Option.isSome_iff_exists.mp (hf i a (List.mem_cons_self a l))
    rw [hb]
    show (l.foldlM f b).isSome
    exact ih (fun b' a' ha' => hf b' a' (List.mem_cons_of_mem a ha')) b

theorem south_idx_succ (m : Maze) (x y : Nat) (hy : 1 ≤ y) :
    m.south_wall_index_for_cell x y = m.north_wall_index_for_cell x (y - 1) := by
  cases y with
  | zero => omega
  | succ y' => rfl

theorem south_idx_spec (m : Maze) (x y i : Nat)
    (h : m.south_wall_index_for_cell x y = some i) :
    1 ≤ y ∧ m.north_wall_index_for_cell x (y - 1) = some i := by
  cases y with
  | zero => exact absurd h (by simp [Maze.south_wall_index_for_cell])
  | succ y' => exact ⟨by omega, h⟩

theorem bind_map_lookup_isSome (m : Maze) (g : Wall → String) (i : Nat)
    (hi : i < m.walls.length) :
    ((some i).bind (fun j => (m.walls[j]?).map g)).isSome := by
  rw [Option.some_bind, List.getElem?_eq_getElem hi]
  rfl

/-- Every lattice point with `x ≤ width` and `y ≤ height` gets a glyph: no
`.unwrap()` inside `get_corner` can fail and every wall access it performs
is in bounds. -/
theorem get_corner_isSome (w h : Nat) (m : Maze) (hWF : WF m w h)
    (hw : 1 ≤ w) (hh : 1 ≤ h) (x y : Nat) (hx : x ≤ w) (hy : y ≤ h) :
    (get_corner m x y).isSome := by
  obtain ⟨hW, hH, hL⟩ := hWF
  subst hW hH
  unfold get_corner
  rw [if_neg (by omega)]
  by_cases h1 : x = 0 ∧ y = 0
  · rw [if_pos h1]
    rfl
  rw [if_neg h1]
  by_cases h2 : x = 0 ∧ y = m.height
  · rw [if_pos h2]
    rfl
  rw [if_neg h2]
  by_cases h3 : y = 0 ∧ x = m.width
  · rw [if_pos h3]
    rfl
  rw [if_neg h3]
  by_cases h4 : x = m.width ∧ y = m.height
  · rw [if_pos h4]
    rfl
  rw [if_neg h4]
  by_cases h5 : x = 0
  · rw [if_pos h5]
    rw [south_idx_succ m 0 y (by omega)]
    rw [north_idx_some m 0 (y - 1) (by omega)]
    apply bind_map_lookup_isSome
    have := north_block_lt m.width m.height 0 (y - 1) (by omega) (by omega)
    omega
  rw [if_neg h5]
  by_cases h6 : x = m.width
  · rw [if_pos h6]
    rw [south_idx_succ m (x - 1) y (by omega)]
    rw [north_idx_some m (x - 1) (y - 1) (by omega)]
    apply bind_map_lookup_isSome
    have := north_block_lt m.width m.height (x - 1) (y - 1) (by omega) (by omega)
    omega
  rw [if_neg h6]
  by_cases h7 : y = 0
  · rw [if_pos h7]
    rw [east_idx_some m (x - 1) 0 (by omega)]
    apply bind_map_lookup_isSome
    have := east_block_lt m.width m.height (x - 1) 0 (by omega) (by omega)
    omega
  rw [if_neg h7]
  by_cases h8 : y = m.height
  · rw [if_pos h8]
    rw [east_idx_some m (x - 1) (y - 1) (by omega)]
    apply bind_map_lookup_isSome
    have := east_block_lt m.width m.height (x - 1) (y - 1) (by omega) (by omega)
    omega
  rw [if_neg h8]
  have hb1 : (m.height - 1) * m.width + (y + (x - 1) * m.height) <
      m.walls.length := by
    have := east_block_lt m.width m.height (x - 1) y (by omega) (by omega)
    omega
  have hb2 : x + (y - 1) * m.width < m.walls.length := by
    have := north_block_lt m.width m.height x (y - 1) (by omega) (by omega)
    omega
  have hb3 : (m.height - 1) * m.width + (y - 1 + (x - 1) * m.height) <
      m.walls.length := by
    have := east_block_lt m.width m.height (x - 1) (y - 1) (by omega) (by omega)
    omega
  have hb4 : x - 1 + (y - 1) * m.width < m.walls.length := by
    have := north_block_lt m.width m.height (x - 1) (y - 1) (by omega) (by omega)
    omega
  rw [east_idx_some m (x - 1) y (by omega), Option.some_bind,
    List.getElem?_eq_getElem hb1, Option.some_bind,
    north_idx_some m x (y - 1) (by omega), Option.some_bind,
    List.getElem?_eq_getElem hb2, Option.some_bind,
    east_idx_some m (x - 1) (y - 1) (by omega), Option.some_bind,
    List.getElem?_eq_getElem hb3, Option.some_bind,
    north_idx_some m (x - 1) (y - 1) (by omega), Option.some_bind,
    List.getElem?_eq_getElem hb4, Option.map_some']
  rfl

theorem renderTopEdge_isSome (w h : Nat) (m : Maze) (hWF : WF m w h)
    (hw : 1 ≤ w) (hh : 1 ≤ h) : (renderTopEdge m).isSome := by
  unfold renderTopEdge
  apply foldlM_option_isSome
  intro acc i hi
  rw [List.mem_range] at hi
  have hW := hWF.1
  have hH := hWF.2.1
  have := get_corner_isSome w h m hWF hw hh (i + 1) m.height (by omega) (by omega)
  simpa using this

theorem renderEastRow_isSome (w h : Nat) (m : Maze) (hWF : WF m w h)
    (y : Nat) (hy : y < h) : (renderEastRow m y).isSome := by
  unfold renderEastRow
  apply foldlM_option_isSome
  intro acc x hx
  rw [List.mem_range] at hx
  cases he : m.east_wall_index_for_cell x y with
  | none => rfl
  | some i =>
    have hlt : i < m.walls.length := east_idx_lt m w h x y i hWF hy he
    show ((m.walls[i]?).map _).isSome
    rw [List.getElem?_eq_getElem hlt]
    rfl

theorem renderSouthRow_isSome (w h : Nat) (m : Maze) (hWF : WF m w h)
    (hw : 1 ≤ w) (hh : 1 ≤ h) (y : Nat) (hy : y < h) :
    (renderSouthRow m y).isSome := by
  unfold renderSouthRow
  obtain ⟨c0, hc0⟩ := Option.isSome_iff_exists.mp
    (get_corner_isSome w h m hWF hw hh 0 y (by omega) (by omega))
  rw [hc0, Option.some_bind]
  apply foldlM_option_isSome
  intro acc x hx
  rw [List.mem_range] at hx
  have hW := hWF.1
  obtain ⟨cg, hcg⟩ := Option.isSome_iff_exists.mp
    (get_corner_isSome w h m hWF hw hh (x + 1) y (by omega) (by omega))
  cases hs : m.south_wall_index_for_cell x y with
  | none =>
    show ((some "───").bind _).isSome
    rw [Option.some_bind, hcg]
    rfl
  | some i =>
    obtain ⟨hy1, hn⟩ := south_idx_spec m x y i hs
    have hlt : i < m.walls.length := north_idx_lt m w h x (y - 1) i hWF (by omega) hn
    show (((m.walls[i]?).map _).bind _).isSome
    rw [List.getElem?_eq_getElem hlt, Option.map_some', Option.some_bind, hcg]
    rfl

/-- C10: on every maze with positive recorded dimensions and a wall array of
the allocated length — whatever the open/closed states — rendering is total:
every `get_corner` call made by the `Display` implementation returns `Some`
(so no `.unwrap()` fails) and every wall-array access of the renderer and of
`get_corner` is in bounds. -/
theorem C10_render_total (w h : Nat) (hw : 1 ≤ w) (hh : 1 ≤ h)
    (walls : List Wall) (hlen : walls.length = (w - 1) * h + (h - 1) * w) :
    (render (Maze.mk h w walls)).isSome := by
  set m := Maze.mk h w walls with hm
  have hWF : WF m w h := ⟨rfl, rfl, by simpa [hm] using hlen⟩
  unfold render
  obtain ⟨top, htop⟩ := Option.isSome_iff_exists.mp
    (renderTopEdge_isSome w h m hWF hw hh)
  rw [htop, Option.some_bind]
  apply foldlM_option_isSome
  intro acc y hy
  rw [List.mem_reverse, List.mem_range] at hy
  have hH := hWF.2.1
  obtain ⟨er, her⟩ := Option.isSome_iff_exists.mp
    (renderEastRow_isSome w h m hWF y (by omega))
  rw [her, Option.some_bind]
  have := renderSouthRow_isSome w h m hWF hw hh y (by omega)
  simpa using this

/-- Witness for C10 at the all-closed 3×3 grid. -/
theorem C10_render_total_witness :
    (render (Maze.mk 3 3 (List.replicate 12 Wall.Closed))).isSome :=
  C10_render_total 3 3 (by omega) (by omega) (List.replicate 12 Wall.Closed)
    (by simp)

end MazeModel
